import Mathlib

/-!
Verification of the trello-clone backend scaffold against its specification.

The repository contains three source files: `src/shared/config/settings.py`
(Pydantic settings with a CORS-origin validator and environment predicates),
`src/main.py` (FastAPI app with health and readiness endpoints), and
`src/domain/users/repositories.py` (an empty interface module).  The
mutation-and-consistency engine (Entity model, Repository, Unit of Work,
Outbox Writer and Relay) exists only as the specification's design; those
components are modelled here from the spec's words, as marked on each
definition.
-/

/-! ## Embedding of `Settings.parse_cors_origins` (src/shared/config/settings.py) -/

/-- The whitespace characters stripped by Python `str.strip()` on ASCII input,
as used by `parse_cors_origins`. -/
def isPyWs (c : Char) : Bool :=
  c = ' ' || c = '\t' || c = '\n' || c = '\r' || c = '\x0b' || c = '\x0c'

/-- Python `s.split(",")`: split on every comma, keeping empty pieces
(so `"".split(",") == [""]`).  Strings are embedded as `List Char`. -/
def pySplit : List Char → List (List Char)
  | [] => [[]]
  | c :: cs =>
    if c = ',' then [] :: pySplit cs
    else
      match pySplit cs with
      | [] => [[c]]
      | p :: ps => (c :: p) :: ps

/-- Python `s.strip()`: drop whitespace from both ends. -/
def pyStrip (s : List Char) : List Char :=
  ((s.dropWhile isPyWs).reverse.dropWhile isPyWs).reverse

/-- `Settings.parse_cors_origins`: on a string input, the comprehension
`[origin.strip() for origin in v.split(",") if origin.strip()]`; a list input
is returned unchanged.  The `print(v)` side effect in the source does not
affect the returned value and is not modelled. -/
def parse_cors_origins : List Char ⊕ List (List Char) → List (List Char)
  | .inl s => (pySplit s).filterMap
      (fun o => if pyStrip o = [] then none else some (pyStrip o))
  | .inr l => l

/-! ## Embedding of `Settings.is_development` / `is_production` and the
health endpoints (src/shared/config/settings.py, src/main.py) -/

/-- The fields of `Settings` that the embedded code reads. -/
structure Settings where
  app_name : String
  app_version : String
  environment : String
  cors_origins : List String
  deriving Repr, DecidableEq

/-- `Settings.is_development`: `self.environment == "development"`. -/
def Settings.is_development (s : Settings) : Bool :=
  s.environment == "development"

/-- `Settings.is_production`: `self.environment == "production"`. -/
def Settings.is_production (s : Settings) : Bool :=
  s.environment == "production"

/-- The JSON body returned by the `/ready` endpoint, flattened: `status`,
`service`, and the two entries of the nested `checks` object. -/
structure ReadyResponse where
  status : String
  service : String
  databaseCheck : String
  cacheCheck : String
  deriving Repr, DecidableEq

/-- `readiness_check` in src/main.py: builds its response from constants and
the settings only; the database and cache checks are hard-coded `"ok"`. -/
def readiness_check (s : Settings) : ReadyResponse :=
  { status := "ready"
    service := s.app_name
    databaseCheck := "ok"
    cacheCheck := "ok" }

/-! ## Lemmas about the CORS parser -/

theorem pySplit_ne_nil (s : List Char) : pySplit s ≠ [] := by
  cases s with
  | nil => simp [pySplit]
  | cons c cs =>
    unfold pySplit
    by_cases h : c = ','
    · simp [h]
    · simp only [h, if_false]
      cases hr : pySplit cs <;> simp

theorem mem_pySplit_sub (s p : List Char) (hp : p ∈ pySplit s) :
    ∀ c ∈ p, c ∈ s := by
  induction s generalizing p with
  | nil =>
    simp [pySplit] at hp
    simp [hp]
  | cons a as ih =>
    unfold pySplit at hp
    by_cases h : a = ','
    · simp only [h, if_true] at hp
      rcases List.mem_cons.mp hp with hpe | hpm
      · simp [hpe]
      · intro c hc
        exact List.mem_cons_of_mem _ (ih p hpm c hc)
    · simp only [h, if_false] at hp
      cases hr : pySplit as with
      | nil => exact absurd hr (pySplit_ne_nil as)
      | cons q qs =>
        rw [hr] at hp
        rcases List.mem_cons.mp hp with hpe | hpm
        · intro c hc
          rw [hpe] at hc
          rcases List.mem_cons.mp hc with hce | hcq
          · simp [hce]
          · exact List.mem_cons_of_mem _
              (ih q (by rw [hr]; exact List.mem_cons_self q qs) c hcq)
        · intro c hc
          exact List.mem_cons_of_mem _
            (ih p (by rw [hr]; exact List.mem_cons_of_mem q hpm) c hc)

theorem pyStrip_all_ws (p : List Char) (h : ∀ c ∈ p, isPyWs c) :
    pyStrip p = [] := by
  unfold pyStrip
  have h1 : p.dropWhile isPyWs = [] := by
    rw [List.dropWhile_eq_nil_iff]
    exact fun c hc => h c hc
  rw [h1]
  simp

theorem filterMap_strip_eq (L : List (List Char)) :
    L.filterMap (fun o => if pyStrip o = [] then none else some (pyStrip o))
      = (L.map pyStrip).filter (fun t => !t.isEmpty) := by
  induction L with
  | nil => rfl
  | cons o rest ih =>
    by_cases h : pyStrip o = []
    · simp [List.filterMap_cons, h, List.filter_cons, ih]
    · simp [List.filterMap_cons, h, List.filter_cons, ih, List.isEmpty_iff]

/-- C8: `parse_cors_origins` on a string splits on commas, strips each piece,
and drops empty pieces (so an all-whitespace or empty string maps to `[]`);
a list input is returned unchanged. -/
theorem c8_parse_cors_origins (s : List Char) (l : List (List Char)) :
    parse_cors_origins (Sum.inl s)
        = ((pySplit s).map pyStrip).filter (fun t => !t.isEmpty)
      ∧ ((∀ c ∈ s, isPyWs c) → parse_cors_origins (Sum.inl s) = [])
      ∧ parse_cors_origins (Sum.inr l) = l := by
  refine ⟨?_, ?_, rfl⟩
  · exact filterMap_strip_eq (pySplit s)
  · intro hws
    show (pySplit s).filterMap
        (fun o => if pyStrip o = [] then none else some (pyStrip o)) = []
    rw [List.filterMap_eq_nil_iff]
    intro p hp
    have : pyStrip p = [] :=
      pyStrip_all_ws p (fun c hc => hws c (mem_pySplit_sub s p hp c hc))
    simp [this]

/-- Witness for C8 at concrete inputs: a mixed string with whitespace and an
empty piece, an all-whitespace string, and a list passed through. -/
theorem c8_parse_cors_origins_witness :
    parse_cors_origins (Sum.inl [' ', 'a', ',', ' ', ',', 'b'])
        = ((pySplit [' ', 'a', ',', ' ', ',', 'b']).map pyStrip).filter
            (fun t => !t.isEmpty)
      ∧ parse_cors_origins (Sum.inl [' ', '\t']) = []
      ∧ parse_cors_origins (Sum.inr [['a']]) = [['a']] :=
  ⟨(c8_parse_cors_origins [' ', 'a', ',', ' ', ',', 'b'] []).1,
   (c8_parse_cors_origins [' ', '\t'] []).2.1 (by decide),
   (c8_parse_cors_origins [] [['a']]).2.2⟩

/-- C9: `is_development` holds exactly when `environment` is the string
`"development"`, `is_production` exactly when it is `"production"`; they are
never simultaneously true, and for other values (e.g. `"staging"`) both are
false. -/
theorem c9_environment_predicates (s : Settings) :
    (s.is_development = true ↔ s.environment = "development")
      ∧ (s.is_production = true ↔ s.environment = "production")
      ∧ ¬(s.is_development = true ∧ s.is_production = true)
      ∧ ∃ s' : Settings, s'.is_development = false ∧ s'.is_production = false := by
  refine ⟨?_, ?_, ?_, ?_⟩
  · simp [Settings.is_development]
  · simp [Settings.is_production]
  · rintro ⟨hd, hp⟩
    simp [Settings.is_development] at hd
    simp [Settings.is_production] at hp
    rw [hd] at hp
    exact absurd hp (by decide)
  · exact ⟨⟨"a", "v", "staging", []⟩, by decide, by decide⟩

/-- Witness for C9: applying the theorem at a concrete `Settings` value with
environment `"development"`. -/
theorem c9_environment_predicates_witness :
    (Settings.mk "a" "v" "development" []).is_development = true :=
  (c9_environment_predicates ⟨"a", "v", "development", []⟩).1.mpr rfl

/-- C10: `readiness_check` unconditionally reports status `"ready"` and both
checks `"ok"`, for every settings value (it consults no external
dependency: the response is the same fixed strings for all inputs). -/
theorem c10_readiness_check (s : Settings) :
    (readiness_check s).status = "ready"
      ∧ (readiness_check s).databaseCheck = "ok"
      ∧ (readiness_check s).cacheCheck = "ok" :=
  ⟨rfl, rfl, rfl⟩

/-! ## Spec-modelled Repository with optimistic concurrency (spec §3, §4.2)

The Repository, storage engine and aggregate/version model are absent from
the scaffold (src/domain/users/repositories.py declares no classes), so they
are modelled here from the specification.
-/

/-- Modelled from the spec: the mutable part of an aggregate as the
Repository sees it — an opaque payload plus the soft-delete flag (§3:
aggregates are never deleted physically, only flagged). -/
structure Agg where
  data : Nat
  deleted : Bool
  deriving Repr, DecidableEq

/-- Modelled from the spec: one stored row — payload plus the monotonically
increasing version column used by the conditional write. -/
structure StoredAgg where
  payload : Agg
  version : Nat
  deriving Repr, DecidableEq

/-- Modelled from the spec: the storage engine's aggregate table, keyed by
aggregate id; later entries are shadowed by earlier ones. -/
abbrev Store : Type := List (Nat × StoredAgg)

/-- Modelled from the spec: the typed errors of the Repository contract
(§4.2 / §7): `NotFound` and `ConflictError`. -/
inductive RepoError where
  | notFound
  | conflict
  deriving Repr, DecidableEq

/-- The version the store currently holds for an id; an id that was never
saved is at version 0 (the first successful save produces version 1). -/
def storedVersion (st : Store) (id : Nat) : Nat :=
  match List.lookup id st with
  | none => 0
  | some e => e.version

/-- Modelled from the spec: `load(aggregateType, id) -> (Aggregate, version)`,
failing with `NotFound` if the id is absent or the aggregate is
soft-deleted (§4.2). -/
def Repo.load (st : Store) (id : Nat) : Except RepoError (Agg × Nat) :=
  match List.lookup id st with
  | none => .error .notFound
  | some e =>
    if e.payload.deleted then .error .notFound else .ok (e.payload, e.version)

/-- Modelled from the spec: `save(aggregate, expectedVersion) -> newVersion`
as a compare-and-swap on the version column (§4.2): the write succeeds, and
stores exactly the given payload at `expectedVersion + 1`, only if the
stored version still equals `expectedVersion`; otherwise it fails with
`ConflictError` and leaves the store unchanged. -/
def Repo.save (st : Store) (id : Nat) (p : Agg) (expectedVersion : Nat) :
    Except RepoError (Store × Nat) :=
  if storedVersion st id = expectedVersion then
    .ok ((id, ⟨p, expectedVersion + 1⟩) :: st, expectedVersion + 1)
  else
    .error .conflict

theorem storedVersion_cons (st : Store) (id : Nat) (e : StoredAgg) :
    storedVersion ((id, e) :: st) id = e.version := by
  simp [storedVersion, List.lookup]

/-- C1: the conditional write succeeds (at version `expectedVersion + 1`,
storing exactly the given aggregate — no merge) precisely when the stored
version still equals `expectedVersion`, and fails with `ConflictError`
whenever the stored version has advanced past it. -/
theorem c1_conditional_write (st : Store) (id : Nat) (p : Agg) (ev : Nat) :
    ((∃ st', Repo.save st id p ev = .ok (st', ev + 1)) ↔ storedVersion st id = ev)
      ∧ (storedVersion st id = ev →
          Repo.save st id p ev = .ok ((id, ⟨p, ev + 1⟩) :: st, ev + 1))
      ∧ (ev < storedVersion st id → Repo.save st id p ev = .error .conflict) := by
  refine ⟨⟨?_, ?_⟩, ?_, ?_⟩
  · rintro ⟨st', hok⟩
    by_contra hne
    simp [Repo.save, hne] at hok
  · intro he
    exact ⟨(id, ⟨p, ev + 1⟩) :: st, by simp [Repo.save, he]⟩
  · intro he
    simp [Repo.save, he]
  · intro hlt
    simp [Repo.save, Nat.ne_of_gt hlt]

/-- Witness for C1: a fresh save at expected version 0 succeeds; a save
against a store already at version 1 with expected version 0 conflicts. -/
theorem c1_conditional_write_witness :
    Repo.save [] 1 ⟨5, false⟩ 0 = .ok ([(1, ⟨⟨5, false⟩, 1⟩)], 1)
      ∧ Repo.save [(1, ⟨⟨5, false⟩, 1⟩)] 1 ⟨6, false⟩ 0 = .error .conflict :=
  ⟨(c1_conditional_write [] 1 ⟨5, false⟩ 0).2.1 (by decide),
   (c1_conditional_write [(1, ⟨⟨5, false⟩, 1⟩)] 1 ⟨6, false⟩ 0).2.2 (by decide)⟩

/-! ## C2: version sequence of concurrent mutations

Concurrency is modelled by its linearization at the storage compare-and-swap
(§5: correctness relies solely on the storage-level conditional write): a
run is a sequence of save attempts, each carrying the version its writer
observed; failed attempts leave the store unchanged.
-/

/-- Modelled from the spec: run a sequence of save attempts
`(observedVersion, payload)` against one aggregate; returns the final store
and the list of committed new versions, in commit order. -/
def runAttempts (st : Store) (id : Nat) :
    List (Nat × Agg) → Store × List Nat
  | [] => (st, [])
  | (ev, p) :: rest =>
    match Repo.save st id p ev with
    | .ok (st', v') =>
      let r := runAttempts st' id rest
      (r.1, v' :: r.2)
    | .error _ => runAttempts st id rest


theorem runAttempts_spec (id : Nat) (attempts : List (Nat × Agg)) :
    ∀ st : Store,
      storedVersion (runAttempts st id attempts).1 id
          = storedVersion st id + (runAttempts st id attempts).2.length
        ∧ (runAttempts st id attempts).2
            = List.range' (storedVersion st id + 1)
                (runAttempts st id attempts).2.length := by
  induction attempts with
  | nil => intro st; simp [runAttempts]
  | cons a rest ih =>
    intro st
    obtain ⟨ev, p⟩ := a
    by_cases he : storedVersion st id = ev
    · have hsave : Repo.save st id p ev
          = .ok ((id, ⟨p, ev + 1⟩) :: st, ev + 1) := by
        simp [Repo.save, he]
      have hv' : storedVersion ((id, ⟨p, ev + 1⟩) :: st) id = ev + 1 :=
        storedVersion_cons st id ⟨p, ev + 1⟩
      obtain ⟨ih1, ih2⟩ := ih ((id, ⟨p, ev + 1⟩) :: st)
      rw [hv'] at ih1 ih2
      simp only [runAttempts, hsave]
      refine ⟨?_, ?_⟩
      · rw [ih1, he, List.length_cons]
        omega
      · rw [he, List.length_cons, List.range'_succ]
        exact congrArg (List.cons (ev + 1)) ih2
    · have hsave : Repo.save st id p ev = .error .conflict := by
        simp [Repo.save, he]
      simp only [runAttempts, hsave]
      exact ih st

/-- C2: for every linearized sequence of (possibly conflicting) save
attempts on one aggregate, starting from an unsaved id: the final stored
version equals the number of committed attempts, and the committed new
versions form exactly the gap-free strictly increasing sequence
`1, 2, …, n` — each commit bumps the version by exactly 1, and no two
commits observed the same prior version. -/
theorem c2_version_sequence (st : Store) (id : Nat)
    (attempts : List (Nat × Agg)) (h0 : storedVersion st id = 0) :
    storedVersion (runAttempts st id attempts).1 id
        = (runAttempts st id attempts).2.length
      ∧ (runAttempts st id attempts).2
          = List.range' 1 (runAttempts st id attempts).2.length := by
  obtain ⟨h1, h2⟩ := runAttempts_spec id attempts st
  rw [h0] at h1 h2
  exact ⟨by simpa using h1, by simpa using h2⟩

/-- Witness for C2: three attempts, of which the second conflicts (it
observes the already-overwritten version 5): two commits, final version 2,
committed versions `[1, 2]`. -/
theorem c2_version_sequence_witness :
    storedVersion
        (runAttempts [] 1 [(0, ⟨7, false⟩), (5, ⟨8, false⟩), (1, ⟨9, false⟩)]).1 1
        = (runAttempts [] 1
            [(0, ⟨7, false⟩), (5, ⟨8, false⟩), (1, ⟨9, false⟩)]).2.length
      ∧ (runAttempts [] 1 [(0, ⟨7, false⟩), (5, ⟨8, false⟩), (1, ⟨9, false⟩)]).2
          = List.range' 1 (runAttempts [] 1
              [(0, ⟨7, false⟩), (5, ⟨8, false⟩), (1, ⟨9, false⟩)]).2.length :=
  c2_version_sequence [] 1 [(0, ⟨7, false⟩), (5, ⟨8, false⟩), (1, ⟨9, false⟩)]
    (by decide)

/-! ## C5: save/load round trip -/

/-- Counterexample to C5 as stated: `save` accepts a soft-deleted payload
(the cascading delete persists exactly such states through `Repository.save`),
but `load` on the spec's contract then fails with `NotFound` instead of
returning the saved aggregate. -/
theorem c5_round_trip_counterexample :
    Repo.save [] 1 ⟨0, true⟩ 0 = .ok ([(1, ⟨⟨0, true⟩, 1⟩)], 1)
      ∧ Repo.load [(1, ⟨⟨0, true⟩, 1⟩)] 1 = .error .notFound
      ∧ Repo.load [(1, ⟨⟨0, true⟩, 1⟩)] 1 ≠ .ok (⟨0, true⟩, 1) := by
  refine ⟨rfl, rfl, ?_⟩
  intro h
  rw [show Repo.load [(1, ⟨⟨0, true⟩, 1⟩)] 1
      = Except.error RepoError.notFound from rfl] at h
  exact Except.noConfusion h

/-- C5 (amended): for every aggregate that is not soft-deleted, a successful
`save` followed by `load` of the same id returns an aggregate equal to the
one saved, with version exactly `expectedVersion + 1`. -/
theorem c5_round_trip (st : Store) (id : Nat) (p : Agg) (ev : Nat)
    (st' : Store) (v' : Nat) (hnd : p.deleted = false)
    (hok : Repo.save st id p ev = .ok (st', v')) :
    v' = ev + 1 ∧ Repo.load st' id = .ok (p, ev + 1) := by
  unfold Repo.save at hok
  by_cases he : storedVersion st id = ev
  · rw [if_pos he] at hok
    obtain ⟨hst, hv⟩ : (id, (⟨p, ev + 1⟩ : StoredAgg)) :: st = st' ∧ ev + 1 = v' := by
      have := Except.ok.inj hok
      exact ⟨congrArg Prod.fst this, congrArg Prod.snd this⟩
    refine ⟨hv.symm, ?_⟩
    rw [← hst]
    simp [Repo.load, List.lookup, hnd]
  · rw [if_neg he] at hok
    exact absurd hok (by simp)

/-- Witness for C5 (amended): a concrete non-deleted aggregate saved at
expected version 0 is loaded back unchanged at version 1. -/
theorem c5_round_trip_witness :
    (1 : Nat) = 0 + 1
      ∧ Repo.load [(1, ⟨⟨5, false⟩, 1⟩)] 1 = .ok (⟨5, false⟩, 0 + 1) :=
  c5_round_trip [] 1 ⟨5, false⟩ 0 [(1, ⟨⟨5, false⟩, 1⟩)] 1 rfl rfl

/-! ## C4: Unit of Work conflict retry (spec §4.6, §5, §7)

A Unit of Work attempt is a load followed by a save; interference by
concurrent writers is modelled by an environment `env : Nat → Store × Store`
giving, for attempt `k`, the store seen by the fresh reload and the store the
conditional write runs against (which another writer may have advanced in
between).
-/

/-- Modelled from the spec: the typed errors a Unit of Work surfaces for this
fragment (§7): `NotFound` (no retry) and `ConflictError` (retried, then
surfaced). -/
inductive UowError where
  | notFound
  | conflict
  deriving Repr, DecidableEq

/-- Modelled from the spec: the retry bound for `ConflictError` ("a small
fixed bound (e.g., 3 attempts)", §4.6). -/
def retryBound : Nat := 3

/-- Modelled from the spec: one load–mutate–save cycle of the Unit of Work
(§4.6): reload the aggregate, apply the mutation, save with the version
observed at load time. -/
def uowAttempt (e : Store × Store) (id : Nat) (f : Agg → Agg) :
    Except UowError (Store × Nat) :=
  match Repo.load e.1 id with
  | .error _ => .error .notFound
  | .ok (a, v) =>
    match Repo.save e.2 id (f a) v with
    | .ok r => .ok r
    | .error _ => .error .conflict

/-- Modelled from the spec: the retry loop — on `ConflictError` run the whole
cycle again against the fresh environment, consuming one unit of fuel; with
fuel exhausted the conflict is surfaced; other results are returned as is. -/
def uowGo (env : Nat → Store × Store) (id : Nat) (f : Agg → Agg) :
    Nat → Nat → Except UowError (Store × Nat)
  | _, 0 => .error .conflict
  | k, fuel + 1 =>
    match uowAttempt (env k) id f with
    | .error .conflict => uowGo env id f (k + 1) fuel
    | r => r

/-- Modelled from the spec: `execute(command)` for the conflict-handling
fragment — run the load–mutate–save cycle with at most `retryBound`
attempts. -/
def UnitOfWork.execute (env : Nat → Store × Store) (id : Nat)
    (f : Agg → Agg) : Except UowError (Store × Nat) :=
  uowGo env id f 0 retryBound

theorem uowGo_all_conflict (env : Nat → Store × Store) (id : Nat)
    (f : Agg → Agg) :
    ∀ fuel k, (∀ i, i < fuel → uowAttempt (env (k + i)) id f = .error .conflict) →
      uowGo env id f k fuel = .error .conflict := by
  intro fuel
  induction fuel with
  | zero => intro k _; rfl
  | succ m ih =>
    intro k hall
    have h0 : uowAttempt (env k) id f = .error .conflict := by
      simpa using hall 0 (Nat.succ_pos m)
    simp only [uowGo, h0]
    exact ih (k + 1) (fun i hi => by
      have hstep := hall (i + 1) (Nat.succ_lt_succ hi)
      have hidx : k + 1 + i = k + (i + 1) := by omega
      rw [hidx]
      exact hstep)

theorem uowGo_first_ok (env : Nat → Store × Store) (id : Nat)
    (f : Agg → Agg) :
    ∀ fuel k j r, j < fuel →
      (∀ i, i < j → uowAttempt (env (k + i)) id f = .error .conflict) →
      uowAttempt (env (k + j)) id f = .ok r →
      uowGo env id f k fuel = .ok r := by
  intro fuel
  induction fuel with
  | zero => intro k j r hj; exact absurd hj (Nat.not_lt_zero j)
  | succ m ih =>
    intro k j r hj hconf hok
    cases j with
    | zero =>
      simp only [Nat.add_zero] at hok
      simp only [uowGo, hok]
    | succ j' =>
      have h0 : uowAttempt (env k) id f = .error .conflict := by
        simpa using hconf 0 (Nat.succ_pos j')
      simp only [uowGo, h0]
      refine ih (k + 1) j' r (Nat.lt_of_succ_lt_succ hj) ?_ ?_
      · intro i hi
        have hstep := hconf (i + 1) (Nat.succ_lt_succ hi)
        have hidx : k + 1 + i = k + (i + 1) := by omega
        rw [hidx]
        exact hstep
      · have hidx : k + 1 + j' = k + (j' + 1) := by omega
        rw [hidx]
        exact hok

/-- C4: the Unit of Work retries the load–mutate–save cycle, each time
against the fresh environment, at most `retryBound` times: if every attempt
within the bound conflicts, `ConflictError` is surfaced; if some attempt
`j < retryBound` succeeds after only conflicts, its result is returned. -/
theorem c4_uow_conflict_retry (env : Nat → Store × Store) (id : Nat)
    (f : Agg → Agg) :
    ((∀ k, k < retryBound → uowAttempt (env k) id f = .error .conflict) →
        UnitOfWork.execute env id f = .error .conflict)
      ∧ ∀ j r, j < retryBound →
          (∀ k, k < j → uowAttempt (env k) id f = .error .conflict) →
          uowAttempt (env j) id f = .ok r →
          UnitOfWork.execute env id f = .ok r := by
  constructor
  · intro hall
    exact uowGo_all_conflict env id f retryBound 0
      (fun i hi => by simpa using hall i hi)
  · intro j r hj hconf hok
    exact uowGo_first_ok env id f retryBound 0 j r hj
      (fun i hi => by simpa using hconf i hi) (by simpa using hok)

/-- Witness for C4: an environment whose save-time store is always one
version ahead of the load-time store makes every attempt conflict, so
`execute` surfaces `ConflictError`; an environment that stops interfering
after the first attempt lets the second attempt commit. -/
theorem c4_uow_conflict_retry_witness :
    UnitOfWork.execute
        (fun k => ([(1, ⟨⟨0, false⟩, k + 1⟩)], [(1, ⟨⟨0, false⟩, k + 2⟩)]))
        1 (fun a => ⟨a.data + 1, a.deleted⟩)
      = .error .conflict
      ∧ UnitOfWork.execute
          (fun k =>
            if k = 0 then ([(1, ⟨⟨0, false⟩, 1⟩)], [(1, ⟨⟨5, false⟩, 2⟩)])
            else ([(1, ⟨⟨5, false⟩, 2⟩)], [(1, ⟨⟨5, false⟩, 2⟩)]))
          1 (fun a => ⟨a.data + 1, a.deleted⟩)
        = .ok ((1, ⟨⟨6, false⟩, 3⟩) :: [(1, ⟨⟨5, false⟩, 2⟩)], 3) :=
  ⟨(c4_uow_conflict_retry
      (fun k => ([(1, ⟨⟨0, false⟩, k + 1⟩)], [(1, ⟨⟨0, false⟩, k + 2⟩)]))
      1 (fun a => ⟨a.data + 1, a.deleted⟩)).1
      (by intro k hk; simp only [retryBound] at hk; interval_cases k <;> rfl),
   (c4_uow_conflict_retry
      (fun k =>
        if k = 0 then ([(1, ⟨⟨0, false⟩, 1⟩)], [(1, ⟨⟨5, false⟩, 2⟩)])
        else ([(1, ⟨⟨5, false⟩, 2⟩)], [(1, ⟨⟨5, false⟩, 2⟩)]))
      1 (fun a => ⟨a.data + 1, a.deleted⟩)).2
      1 ((1, ⟨⟨6, false⟩, 3⟩) :: [(1, ⟨⟨5, false⟩, 2⟩)], 3)
      (by decide) (by intro k hk; interval_cases k; rfl) rfl⟩

/-! ## C3: Entity & Version Model mutation functions (spec §3, §4.1) -/

/-- Modelled from the spec: a Card — identity, payload, archival and
soft-delete flags; the Card aggregate graph is embedded inside its owning
Board for the entity-model fragment. -/
structure DCard where
  cardId : Nat
  cardTitle : String
  cardDeleted : Bool
  deriving Repr, DecidableEq

/-- Modelled from the spec: a List owned by a Board — identity, payload, the
ordered sequence of its cards, archival and soft-delete flags. -/
structure BoardList where
  listId : Nat
  listTitle : String
  archived : Bool
  cards : List DCard
  listDeleted : Bool
  deriving Repr, DecidableEq

/-- Modelled from the spec: a Board aggregate — identity, payload, the
ordered sequence of owned lists, soft-delete flag, and the optimistic
concurrency version stamp. -/
structure Board where
  boardId : Nat
  boardTitle : String
  lists : List BoardList
  boardDeleted : Bool
  version : Nat
  deriving Repr, DecidableEq

/-- Modelled from the spec: the closed set of event type tags relevant to
the modelled mutations (§3). -/
inductive EventType where
  | boardCreated
  | boardRenamed
  | cardMoved
  | listReordered
  | listArchived
  | boardDeleted
  | listDeleted
  | cardDeleted
  deriving Repr, DecidableEq

/-- Modelled from the spec: a domain event as the mutation functions imply
it — type tag plus the id of the aggregate it concerns. -/
structure MEvent where
  etype : EventType
  aggId : Nat
  deriving Repr, DecidableEq

/-- Modelled from the spec: `ValidationError`, raised when a mutation's
preconditions are violated (§4.1). -/
inductive ValidationError where
  | entityMissing
  | archivedTarget
  | emptyTitle
  | badPosition
  deriving Repr, DecidableEq

/-- Rename the board; precondition: the new title is nonempty. -/
def Board.rename (b : Board) (t : String) :
    Except ValidationError (Board × List MEvent) :=
  if t = "" then .error .emptyTitle
  else .ok ({ b with boardTitle := t }, [⟨.boardRenamed, b.boardId⟩])

/-- Modelled from the spec: move a card to the end of a target list;
preconditions: the target list exists and is not archived, and some list of
the board holds the card (§4.1's example precondition). -/
def Board.moveCard (b : Board) (cid targetId : Nat) :
    Except ValidationError (Board × List MEvent) :=
  match b.lists.find? (fun l => l.listId = targetId) with
  | none => .error .entityMissing
  | some tl =>
    if tl.archived then .error .archivedTarget
    else
      match (b.lists.map BoardList.cards).flatten.find?
          (fun c => c.cardId = cid) with
      | none => .error .entityMissing
      | some card =>
        let stripped := b.lists.map (fun l =>
          { l with cards := l.cards.filter (fun c => ¬c.cardId = cid) })
        .ok ({ b with lists := stripped.map (fun l =>
                if l.listId = targetId then { l with cards := l.cards ++ [card] }
                else l) },
             [⟨.cardMoved, b.boardId⟩])

/-- Modelled from the spec: move an owned list to a new position;
preconditions: the list exists and the position is in range. -/
def Board.reorderList (b : Board) (lid pos : Nat) :
    Except ValidationError (Board × List MEvent) :=
  match b.lists.find? (fun l => l.listId = lid) with
  | none => .error .entityMissing
  | some l =>
    let others := b.lists.filter (fun l' => ¬l'.listId = lid)
    if pos ≤ others.length then
      .ok ({ b with lists := others.take pos ++ [l] ++ others.drop pos },
           [⟨.listReordered, b.boardId⟩])
    else .error .badPosition

/-- Modelled from the spec: archive an owned list; precondition: it exists
and is not already archived. -/
def Board.archiveList (b : Board) (lid : Nat) :
    Except ValidationError (Board × List MEvent) :=
  match b.lists.find? (fun l => l.listId = lid) with
  | none => .error .entityMissing
  | some l =>
    if l.archived then .error .archivedTarget
    else
      .ok ({ b with lists := b.lists.map (fun l' =>
              if l'.listId = lid then { l' with archived := true } else l') },
           [⟨.listArchived, b.boardId⟩])

/-- Modelled from the spec: cascading soft delete (§3, §9) — flag the board
and every owned list and card as deleted, emitting one `*.deleted` event per
affected aggregate; no entity is removed. -/
def Board.softDelete (b : Board) :
    Except ValidationError (Board × List MEvent) :=
  .ok ({ b with
          boardDeleted := true
          lists := b.lists.map (fun l =>
            { l with
                listDeleted := true
                cards := l.cards.map (fun c => { c with cardDeleted := true }) }) },
       ⟨.boardDeleted, b.boardId⟩
         :: b.lists.map (fun l => ⟨.listDeleted, l.listId⟩)
         ++ (b.lists.map BoardList.cards).flatten.map
              (fun c => ⟨.cardDeleted, c.cardId⟩))

/-- Modelled from the spec: `create` — a fresh Board with no lists, at
version 0 (the version is first bumped by persistence, not in memory);
precondition: nonempty title. -/
def Board.create (bid : Nat) (t : String) :
    Except ValidationError (Board × List MEvent) :=
  if t = "" then .error .emptyTitle
  else .ok (⟨bid, t, [], false, 0⟩, [⟨.boardCreated, bid⟩])

/-- Modelled from the spec: the commands dispatched to the entity-model
mutation functions. -/
inductive Mutation where
  | rename (t : String)
  | moveCard (cid targetId : Nat)
  | reorderList (lid pos : Nat)
  | archiveList (lid : Nat)
  | softDelete
  deriving Repr, DecidableEq

/-- Modelled from the spec: apply one mutation command to a board. -/
def applyMutation (m : Mutation) (b : Board) :
    Except ValidationError (Board × List MEvent) :=
  match m with
  | .rename t => b.rename t
  | .moveCard cid targetId => b.moveCard cid targetId
  | .reorderList lid pos => b.reorderList lid pos
  | .archiveList lid => b.archiveList lid
  | .softDelete => b.softDelete

/-- C3: the entity-model mutation functions are deterministic — equal inputs
give equal results (they are pure functions of their arguments, returning a
new state plus events or a `ValidationError`) — and on success the new
in-memory state carries the input aggregate's version unchanged; `create`
likewise starts at version 0 rather than bumping in memory. -/
theorem c3_mutations_pure (m : Mutation) (b b' : Board) :
    (b = b' → applyMutation m b = applyMutation m b')
      ∧ (∀ out, applyMutation m b = .ok out → out.1.version = b.version)
      ∧ (∀ bid t out, Board.create bid t = .ok out → out.1.version = 0) := by
  refine ⟨fun h => by rw [h], ?_, ?_⟩
  · intro out hok
    cases m with
    | rename t =>
      simp only [applyMutation, Board.rename] at hok
      split at hok
      · exact absurd hok (by simp)
      · rw [← (Except.ok.inj hok)]
    | moveCard cid targetId =>
      simp only [applyMutation, Board.moveCard] at hok
      split at hok
      · exact absurd hok (by simp)
      · split at hok
        · exact absurd hok (by simp)
        · split at hok
          · exact absurd hok (by simp)
          · rw [← (Except.ok.inj hok)]
    | reorderList lid pos =>
      simp only [applyMutation, Board.reorderList] at hok
      split at hok
      · exact absurd hok (by simp)
      · split at hok
        · rw [← (Except.ok.inj hok)]
        · exact absurd hok (by simp)
    | archiveList lid =>
      simp only [applyMutation, Board.archiveList] at hok
      split at hok
      · exact absurd hok (by simp)
      · split at hok
        · exact absurd hok (by simp)
        · rw [← (Except.ok.inj hok)]
    | softDelete =>
      simp only [applyMutation, Board.softDelete] at hok
      rw [← (Except.ok.inj hok)]
  · intro bid t out hok
    simp only [Board.create] at hok
    split at hok
    · exact absurd hok (by simp)
    · rw [← (Except.ok.inj hok)]

/-- Witness for C3: a concrete card move between two lists preserves the
board's version, and a concrete `create` starts at version 0. -/
theorem c3_mutations_pure_witness :
    applyMutation (.moveCard 10 2)
        ⟨1, "b", [⟨1, "todo", false, [⟨10, "c", false⟩], false⟩,
                  ⟨2, "done", false, [], false⟩], false, 7⟩
      = applyMutation (.moveCard 10 2)
        ⟨1, "b", [⟨1, "todo", false, [⟨10, "c", false⟩], false⟩,
                  ⟨2, "done", false, [], false⟩], false, 7⟩
      ∧ (⟨1, "b", [⟨1, "todo", false, [], false⟩,
                   ⟨2, "done", false, [⟨10, "c", false⟩], false⟩], false, 7⟩
            : Board).version
          = (⟨1, "b", [⟨1, "todo", false, [⟨10, "c", false⟩], false⟩,
                       ⟨2, "done", false, [], false⟩], false, 7⟩ : Board).version :=
  ⟨(c3_mutations_pure (.moveCard 10 2)
      ⟨1, "b", [⟨1, "todo", false, [⟨10, "c", false⟩], false⟩,
                ⟨2, "done", false, [], false⟩], false, 7⟩
      ⟨1, "b", [⟨1, "todo", false, [⟨10, "c", false⟩], false⟩,
                ⟨2, "done", false, [], false⟩], false, 7⟩).1 rfl,
   (c3_mutations_pure (.moveCard 10 2)
      ⟨1, "b", [⟨1, "todo", false, [⟨10, "c", false⟩], false⟩,
                ⟨2, "done", false, [], false⟩], false, 7⟩
      ⟨1, "b", [⟨1, "todo", false, [⟨10, "c", false⟩], false⟩,
                ⟨2, "done", false, [], false⟩], false, 7⟩).2.1
      (⟨1, "b", [⟨1, "todo", false, [], false⟩,
                 ⟨2, "done", false, [⟨10, "c", false⟩], false⟩], false, 7⟩,
       [⟨.cardMoved, 1⟩])
      rfl⟩

/-! ## C6: Outbox Writer transactional atomicity (spec §3, §4.4) -/

/-- Modelled from the spec: a domain event as the outbox stores it — unique
event id, aggregate id, and the causal version (the aggregate version it
resulted from). -/
structure OEvent where
  eid : Nat
  aggId : Nat
  causal : Nat
  deriving Repr, DecidableEq

/-- Modelled from the spec: the dispatch status of an outbox row. -/
inductive EStatus where
  | pending
  | dispatched
  | failed
  deriving Repr, DecidableEq

/-- Modelled from the spec: one outbox row — an immutable event plus its
mutable dispatch status. -/
structure OEntry where
  ev : OEvent
  status : EStatus
  deriving Repr, DecidableEq

/-- Modelled from the spec: the writes buffered inside one open storage
transaction — aggregate rows and outbox rows, applied atomically on commit
and discarded on rollback. -/
structure Txn where
  aggWrites : List (Nat × StoredAgg)
  evtWrites : List OEntry
  deriving Repr, DecidableEq

/-- Modelled from the spec: the durable state — the aggregate table and the
outbox table. -/
structure Database where
  store : Store
  outbox : List OEntry
  deriving Repr, DecidableEq

/-- Modelled from the spec: `record(transaction, events)` — buffer the
events with status `pending` into the same transaction as the aggregate
save (§4.4). -/
def Txn.record (t : Txn) (evs : List OEvent) : Txn :=
  { t with evtWrites := t.evtWrites ++ evs.map (fun e => ⟨e, .pending⟩) }

/-- Modelled from the spec: commit — apply every buffered write to the
durable state in one atomic step. -/
def Database.commit (db : Database) (t : Txn) : Database :=
  { store := t.aggWrites.foldl (fun s w => (w.1, w.2) :: s) db.store
    outbox := db.outbox ++ t.evtWrites }

/-- Modelled from the spec: rollback — discard every buffered write; the
durable state is untouched. -/
def Database.rollback (db : Database) (_t : Txn) : Database := db

/-- C6: if the transaction in which `record(transaction, events)` was called
commits, the events land in the durable outbox with status `pending` —
each exactly once when it was recorded once and not already present — in
the same atomic step as the buffered aggregate writes (which are unaffected
by the events); if the transaction rolls back, the durable state records
none of them. -/
theorem c6_outbox_atomicity (db : Database) (t : Txn) (evs : List OEvent) :
    (Database.commit db (Txn.record t evs)).outbox
        = (Database.commit db t).outbox ++ evs.map (fun e => ⟨e, .pending⟩)
      ∧ (∀ e ∈ evs, evs.count e = 1 →
          (Database.commit db t).outbox.count ⟨e, .pending⟩ = 0 →
          (Database.commit db (Txn.record t evs)).outbox.count ⟨e, .pending⟩ = 1)
      ∧ (Database.commit db (Txn.record t evs)).store = (Database.commit db t).store
      ∧ Database.rollback db (Txn.record t evs) = db := by
  refine ⟨?_, ?_, rfl, rfl⟩
  · simp [Database.commit, Txn.record]
  · intro e hmem hcount hzero
    have hinj : Function.Injective (fun e : OEvent => (⟨e, .pending⟩ : OEntry)) := by
      intro x y hxy
      exact congrArg OEntry.ev hxy
    have hsplit : (Database.commit db (Txn.record t evs)).outbox
        = (Database.commit db t).outbox ++ evs.map (fun e => ⟨e, .pending⟩) := by
      simp [Database.commit, Txn.record]
    rw [hsplit, List.count_append, hzero,
        List.count_map_of_injective evs _ hinj, hcount]

/-- Witness for C6: one event recorded in a transaction holding one
aggregate write appears exactly once as `pending` on commit, and not at all
on rollback. -/
theorem c6_outbox_atomicity_witness :
    (Database.commit ⟨[], []⟩ (Txn.record ⟨[(1, ⟨⟨5, false⟩, 1⟩)], []⟩
          [⟨100, 1, 1⟩])).outbox
        = (Database.commit ⟨[], []⟩ ⟨[(1, ⟨⟨5, false⟩, 1⟩)], []⟩).outbox
            ++ [⟨100, 1, 1⟩].map (fun e => ⟨e, .pending⟩)
      ∧ (Database.commit ⟨[], []⟩ (Txn.record ⟨[(1, ⟨⟨5, false⟩, 1⟩)], []⟩
            [⟨100, 1, 1⟩])).outbox.count ⟨⟨100, 1, 1⟩, .pending⟩ = 1
      ∧ Database.rollback ⟨[], []⟩ (Txn.record ⟨[(1, ⟨⟨5, false⟩, 1⟩)], []⟩
            [⟨100, 1, 1⟩]) = ⟨[], []⟩ :=
  ⟨(c6_outbox_atomicity ⟨[], []⟩ ⟨[(1, ⟨⟨5, false⟩, 1⟩)], []⟩ [⟨100, 1, 1⟩]).1,
   (c6_outbox_atomicity ⟨[], []⟩ ⟨[(1, ⟨⟨5, false⟩, 1⟩)], []⟩ [⟨100, 1, 1⟩]).2.1
      ⟨100, 1, 1⟩ (by decide) (by decide) (by decide),
   (c6_outbox_atomicity ⟨[], []⟩ ⟨[(1, ⟨⟨5, false⟩, 1⟩)], []⟩ [⟨100, 1, 1⟩]).2.2.2⟩

/-! ## C7: Outbox Relay per-aggregate dispatch order (spec §4.5)

The relay is modelled as a fuel-bounded loop of cycles.  Each cycle fetches
a bounded batch of pending events ordered by causal version, and attempts
dispatch in batch order through an acknowledgement oracle; a failed dispatch
leaves the event pending and blocks the rest of that aggregate's events for
the cycle, so that a later event is never dispatched past an earlier
undispatched one of the same aggregate.
-/

/-- The batch order of the relay fetch: ascending causal version. -/
def leCausal (a b : OEvent) : Prop := a.causal ≤ b.causal

instance : DecidableRel leCausal := fun a b => Nat.decLe a.causal b.causal

instance : IsTotal OEvent leCausal := ⟨fun a b => Nat.le_total a.causal b.causal⟩

instance : IsTrans OEvent leCausal := ⟨fun _ _ _ hab hbc => Nat.le_trans hab hbc⟩

/-- Two events of the same aggregate carry distinct causal versions (each
domain event records the aggregate version that produced it, §3). -/
def diffAgg (a b : OEvent) : Prop := a.aggId = b.aggId → a.causal ≠ b.causal

instance : DecidableRel diffAgg := fun a b => by
  unfold diffAgg
  infer_instance

theorem diffAgg_symm {a b : OEvent} (h : diffAgg a b) : diffAgg b a :=
  fun hagg hc => h hagg.symm hc.symm

/-- The per-aggregate ordering guarantee: a later trace element of the same
aggregate has a strictly larger causal version. -/
def ordAgg (a b : OEvent) : Prop := a.aggId = b.aggId → a.causal < b.causal

instance : DecidableRel ordAgg := fun a b => by
  unfold ordAgg
  infer_instance

/-- Modelled from the spec: the events whose outbox rows are `pending`. -/
def pendingEvents (ob : List OEntry) : List OEvent :=
  (ob.filter (fun en => en.status = EStatus.pending)).map OEntry.ev

/-- Modelled from the spec: fetch a bounded batch of pending events ordered
by causal version (§4.5). -/
def fetchBatch (n : Nat) (ob : List OEntry) : List OEvent :=
  (List.insertionSort leCausal (pendingEvents ob)).take n

/-- Modelled from the spec: mark the event with the given id `dispatched`
after an acknowledged enqueue. -/
def markDispatched (ob : List OEntry) (i : Nat) : List OEntry :=
  ob.map (fun en =>
    if en.ev.eid = i then { en with status := EStatus.dispatched } else en)

/-- Modelled from the spec: dispatch a fetched batch in order.  `blocked`
holds the aggregates whose dispatch failed this cycle: their remaining
events are skipped (left `pending`), preserving per-aggregate order. -/
def processBatch (ack : OEvent → Bool) :
    List OEvent → List OEntry → List Nat → List OEntry × List OEvent
  | [], ob, _ => (ob, [])
  | e :: rest, ob, blocked =>
    if e.aggId ∈ blocked then processBatch ack rest ob blocked
    else if ack e then
      let r := processBatch ack rest (markDispatched ob e.eid) blocked
      (r.1, e :: r.2)
    else processBatch ack rest ob (e.aggId :: blocked)

/-- Modelled from the spec: one relay cycle — fetch a batch of at most `n`
pending events in causal order and process it; returns the updated outbox
and the dispatch trace of the cycle. -/
def relayCycle (ack : OEvent → Bool) (n : Nat) (ob : List OEntry) :
    List OEntry × List OEvent :=
  processBatch ack (fetchBatch n ob) ob []

/-- Modelled from the spec: the restartable relay loop, bounded by fuel; the
acknowledgement oracle may answer differently on each cycle (retries).
Returns the final outbox and the concatenated dispatch trace. -/
def relayRun (ack : Nat → OEvent → Bool) (n : Nat) :
    Nat → List OEntry → List OEntry × List OEvent
  | 0, ob => (ob, [])
  | fuel + 1, ob =>
    let c := relayCycle (ack fuel) n ob
    let r := relayRun ack n fuel c.1
    (r.1, c.2 ++ r.2)

theorem pendingEvents_cons (en : OEntry) (obs : List OEntry) :
    pendingEvents (en :: obs)
      = if en.status = EStatus.pending then en.ev :: pendingEvents obs
        else pendingEvents obs := by
  by_cases h : en.status = EStatus.pending
  · simp [pendingEvents, List.filter_cons, h]
  · simp [pendingEvents, List.filter_cons, h]

theorem pendingEvents_markDispatched_sublist (ob : List OEntry) (i : Nat) :
    List.Sublist (pendingEvents (markDispatched ob i)) (pendingEvents ob) := by
  induction ob with
  | nil => simp [markDispatched, pendingEvents]
  | cons en obs ih =>
    rw [show markDispatched (en :: obs) i
        = (if en.ev.eid = i then { en with status := EStatus.dispatched } else en)
          :: markDispatched obs i from rfl]
    by_cases he : en.ev.eid = i
    · rw [if_pos he, pendingEvents_cons, pendingEvents_cons]
      by_cases hs : en.status = EStatus.pending
      · rw [if_neg (by simp), if_pos hs]
        exact ih.cons en.ev
      · rw [if_neg (by simp), if_neg hs]
        exact ih
    · rw [if_neg he, pendingEvents_cons, pendingEvents_cons]
      by_cases hs : en.status = EStatus.pending
      · rw [if_pos hs, if_pos hs]
        exact ih.cons₂ en.ev
      · rw [if_neg hs, if_neg hs]
        exact ih

theorem markDispatched_not_pending (ob : List OEntry) (i : Nat) :
    ∀ x ∈ pendingEvents (markDispatched ob i), ¬x.eid = i := by
  induction ob with
  | nil => simp [markDispatched, pendingEvents]
  | cons en obs ih =>
    intro x hx
    rw [show markDispatched (en :: obs) i
        = (if en.ev.eid = i then { en with status := EStatus.dispatched } else en)
          :: markDispatched obs i from rfl, pendingEvents_cons] at hx
    by_cases he : en.ev.eid = i
    · rw [if_pos he] at hx
      rw [if_neg (by simp)] at hx
      exact ih x hx
    · rw [if_neg he] at hx
      by_cases hs : en.status = EStatus.pending
      · rw [if_pos hs] at hx
        rcases List.mem_cons.mp hx with hxe | hxm
        · rw [hxe]; exact he
        · exact ih x hxm
      · rw [if_neg hs] at hx
        exact ih x hx

theorem processBatch_spec (ack : OEvent → Bool) :
    ∀ batch : List OEvent, ∀ (ob : List OEntry) (blocked : List Nat),
      batch.Pairwise leCausal →
      batch.Pairwise diffAgg →
      (∀ b ∈ batch, ∀ x ∈ pendingEvents ob, x ∉ batch →
          b.aggId = x.aggId → b.aggId ∉ blocked → b.causal < x.causal) →
      List.Sublist (processBatch ack batch ob blocked).2 batch
        ∧ List.Sublist (pendingEvents (processBatch ack batch ob blocked).1)
            (pendingEvents ob)
        ∧ (∀ d ∈ (processBatch ack batch ob blocked).2, d.aggId ∉ blocked)
        ∧ ∀ d ∈ (processBatch ack batch ob blocked).2,
            ∀ x ∈ pendingEvents (processBatch ack batch ob blocked).1,
              d.aggId = x.aggId → d.causal < x.causal := by
  intro batch
  induction batch with
  | nil =>
    intro ob blocked _ _ _
    simp [processBatch]
  | cons e rest ih =>
    intro ob blocked Hs Hd Hout
    obtain ⟨Hse, Hs'⟩ := List.pairwise_cons.mp Hs
    obtain ⟨Hde, Hd'⟩ := List.pairwise_cons.mp Hd
    by_cases hb : e.aggId ∈ blocked
    · rw [show processBatch ack (e :: rest) ob blocked
          = processBatch ack rest ob blocked from by simp [processBatch, hb]]
      have Hout' : ∀ b ∈ rest, ∀ x ∈ pendingEvents ob, x ∉ rest →
          b.aggId = x.aggId → b.aggId ∉ blocked → b.causal < x.causal := by
        intro b hbr x hx hxn hagg hnb
        by_cases hxe : x = e
        · exact absurd (by rw [hagg, hxe]; exact hb) hnb
        · exact Hout b (List.mem_cons_of_mem e hbr) x hx
            (fun hmem => (List.mem_cons.mp hmem).elim hxe hxn) hagg hnb
      obtain ⟨A, B, C, D⟩ := ih ob blocked Hs' Hd' Hout'
      exact ⟨A.cons e, B, C, D⟩
    · by_cases hack : ack e = true
      · rw [show processBatch ack (e :: rest) ob blocked
            = ((processBatch ack rest (markDispatched ob e.eid) blocked).1,
               e :: (processBatch ack rest (markDispatched ob e.eid) blocked).2)
            from by simp [processBatch, hb, hack]]
        have Hout' : ∀ b ∈ rest,
            ∀ x ∈ pendingEvents (markDispatched ob e.eid), x ∉ rest →
            b.aggId = x.aggId → b.aggId ∉ blocked → b.causal < x.causal := by
          intro b hbr x hx hxn hagg hnb
          have hxid : ¬x.eid = e.eid := markDispatched_not_pending ob e.eid x hx
          have hxe : ¬x = e := fun hcon => hxid (by rw [hcon])
          have hxob : x ∈ pendingEvents ob :=
            (pendingEvents_markDispatched_sublist ob e.eid).subset hx
          exact Hout b (List.mem_cons_of_mem e hbr) x hxob
            (fun hmem => (List.mem_cons.mp hmem).elim hxe hxn) hagg hnb
        obtain ⟨A, B, C, D⟩ := ih (markDispatched ob e.eid) blocked Hs' Hd' Hout'
        refine ⟨A.cons₂ e,
          B.trans (pendingEvents_markDispatched_sublist ob e.eid), ?_, ?_⟩
        · intro d hd
          rcases List.mem_cons.mp hd with hde | hdm
          · rw [hde]; exact hb
          · exact C d hdm
        · intro d hd x hx hagg
          rcases List.mem_cons.mp hd with hde | hdm
          · subst hde
            have hx1 : x ∈ pendingEvents (markDispatched ob d.eid) := B.subset hx
            have hxid : ¬x.eid = d.eid := markDispatched_not_pending ob d.eid x hx1
            have hxe : ¬x = d := fun hcon => hxid (by rw [hcon])
            have hxob : x ∈ pendingEvents ob :=
              (pendingEvents_markDispatched_sublist ob d.eid).subset hx1
            by_cases hxr : x ∈ rest
            · exact Nat.lt_of_le_of_ne (Hse x hxr) (Hde x hxr hagg)
            · exact Hout d (List.mem_cons_self d rest) x hxob
                (fun hmem => (List.mem_cons.mp hmem).elim hxe hxr) hagg hb
          · exact D d hdm x hx hagg
      · have hackf : ack e = false := by
          cases h : ack e
          · rfl
          · exact absurd h hack
        rw [show processBatch ack (e :: rest) ob blocked
            = processBatch ack rest ob (e.aggId :: blocked) from by
          simp [processBatch, hb, hackf]]
        have Hout' : ∀ b ∈ rest, ∀ x ∈ pendingEvents ob, x ∉ rest →
            b.aggId = x.aggId → b.aggId ∉ e.aggId :: blocked →
            b.causal < x.causal := by
          intro b hbr x hx hxn hagg hnb
          have hnb' : b.aggId ∉ blocked := fun hmem => hnb (List.mem_cons_of_mem _ hmem)
          by_cases hxe : x = e
          · exact absurd (by rw [hagg, hxe]; exact List.mem_cons_self e.aggId blocked) hnb
          · exact Hout b (List.mem_cons_of_mem e hbr) x hx
              (fun hmem => (List.mem_cons.mp hmem).elim hxe hxn) hagg hnb'
        obtain ⟨A, B, C, D⟩ := ih ob (e.aggId :: blocked) Hs' Hd' Hout'
        exact ⟨A.cons e, B,
          fun d hd hmem => C d hd (List.mem_cons_of_mem _ hmem), D⟩

theorem relayCycle_spec (ack : OEvent → Bool) (n : Nat) (ob : List OEntry)
    (hD : (pendingEvents ob).Pairwise diffAgg) :
    (relayCycle ack n ob).2.Pairwise ordAgg
      ∧ List.Sublist (pendingEvents (relayCycle ack n ob).1) (pendingEvents ob)
      ∧ (∀ d ∈ (relayCycle ack n ob).2, d ∈ pendingEvents ob)
      ∧ ∀ d ∈ (relayCycle ack n ob).2,
          ∀ x ∈ pendingEvents (relayCycle ack n ob).1,
            d.aggId = x.aggId → d.causal < x.causal := by
  have hperm : List.Perm (List.insertionSort leCausal (pendingEvents ob))
      (pendingEvents ob) := List.perm_insertionSort leCausal (pendingEvents ob)
  have hsorted : (List.insertionSort leCausal (pendingEvents ob)).Pairwise leCausal :=
    List.sorted_insertionSort leCausal (pendingEvents ob)
  have hdiff : (List.insertionSort leCausal (pendingEvents ob)).Pairwise diffAgg :=
    hD.perm hperm.symm (fun h => diffAgg_symm h)
  have hbs : List.Sublist (fetchBatch n ob)
      (List.insertionSort leCausal (pendingEvents ob)) := List.take_sublist n _
  have Hs : (fetchBatch n ob).Pairwise leCausal := List.Pairwise.sublist hbs hsorted
  have Hd : (fetchBatch n ob).Pairwise diffAgg := List.Pairwise.sublist hbs hdiff
  have hsorted' : ((List.insertionSort leCausal (pendingEvents ob)).take n
      ++ (List.insertionSort leCausal (pendingEvents ob)).drop n).Pairwise leCausal := by
    rw [List.take_append_drop]
    exact hsorted
  have hdiff' : ((List.insertionSort leCausal (pendingEvents ob)).take n
      ++ (List.insertionSort leCausal (pendingEvents ob)).drop n).Pairwise diffAgg := by
    rw [List.take_append_drop]
    exact hdiff
  have Hout : ∀ b ∈ fetchBatch n ob, ∀ x ∈ pendingEvents ob, x ∉ fetchBatch n ob →
      b.aggId = x.aggId → b.aggId ∉ ([] : List Nat) → b.causal < x.causal := by
    intro b hbmem x hx hxn hagg _
    have hxsorted : x ∈ List.insertionSort leCausal (pendingEvents ob) :=
      hperm.mem_iff.mpr hx
    have hxdrop : x ∈ (List.insertionSort leCausal (pendingEvents ob)).drop n := by
      have : x ∈ (List.insertionSort leCausal (pendingEvents ob)).take n
          ++ (List.insertionSort leCausal (pendingEvents ob)).drop n := by
        rw [List.take_append_drop]
        exact hxsorted
      exact (List.mem_append.mp this).resolve_left hxn
    have hle : leCausal b x := (List.pairwise_append.mp hsorted').2.2 b hbmem x hxdrop
    have hne : diffAgg b x := (List.pairwise_append.mp hdiff').2.2 b hbmem x hxdrop
    exact Nat.lt_of_le_of_ne hle (hne hagg)
  obtain ⟨A, B, C, D⟩ :=
    processBatch_spec ack (fetchBatch n ob) ob [] Hs Hd Hout
  refine ⟨?_, B, ?_, D⟩
  · exact List.Pairwise.sublist A
      ((Hs.and Hd).imp (fun h hagg => Nat.lt_of_le_of_ne h.1 (h.2 hagg)))
  · intro d hd
    exact hperm.mem_iff.mp (hbs.subset (A.subset hd))

theorem relayRun_spec (ack : Nat → OEvent → Bool) (n : Nat) :
    ∀ fuel : Nat, ∀ ob : List OEntry,
      (pendingEvents ob).Pairwise diffAgg →
      (relayRun ack n fuel ob).2.Pairwise ordAgg
        ∧ (∀ d ∈ (relayRun ack n fuel ob).2, d ∈ pendingEvents ob)
        ∧ List.Sublist (pendingEvents (relayRun ack n fuel ob).1)
            (pendingEvents ob) := by
  intro fuel
  induction fuel with
  | zero =>
    intro ob _
    exact ⟨List.Pairwise.nil, fun d hd => absurd hd (List.not_mem_nil d),
      List.Sublist.refl _⟩
  | succ m ih =>
    intro ob hD
    obtain ⟨P1, B1, M1, D1⟩ := relayCycle_spec (ack m) n ob hD
    have hD1 : (pendingEvents (relayCycle (ack m) n ob).1).Pairwise diffAgg :=
      List.Pairwise.sublist B1 hD
    obtain ⟨P2, M2, B2⟩ := ih (relayCycle (ack m) n ob).1 hD1
    rw [show relayRun ack n (m + 1) ob
        = ((relayRun ack n m (relayCycle (ack m) n ob).1).1,
           (relayCycle (ack m) n ob).2
             ++ (relayRun ack n m (relayCycle (ack m) n ob).1).2) from rfl]
    refine ⟨?_, ?_, B2.trans B1⟩
    · rw [List.pairwise_append]
      exact ⟨P1, P2, fun a ha b hb hagg => D1 a ha b (M2 b hb) hagg⟩
    · intro d hd
      rcases List.mem_append.mp hd with h1 | h2
      · exact M1 d h1
      · exact B1.subset (M2 d h2)

/-- C7: in every execution of the relay (any batch bound, any fuel, any
acknowledgement outcomes), the dispatch trace never contains an event of an
aggregate after an event of the same aggregate with a higher causal version:
per aggregate, dispatched causal versions are strictly increasing.  The
hypothesis states that pending events of one aggregate carry pairwise
distinct causal versions (each event records the aggregate version that
produced it, §3). -/
theorem c7_relay_per_aggregate_order (ack : Nat → OEvent → Bool)
    (n fuel : Nat) (ob : List OEntry)
    (hD : (pendingEvents ob).Pairwise diffAgg) :
    (relayRun ack n fuel ob).2.Pairwise ordAgg :=
  (relayRun_spec ack n fuel ob hD).1

/-- Witness for C7: two events of aggregate 1 (causal versions 1 and 2, the
lower one failing dispatch on the first cycle) and one of aggregate 2; the
relay's trace is per-aggregate ordered. -/
theorem c7_relay_per_aggregate_order_witness :
    (relayRun (fun _ e => !(e.eid == 2)) 10 2
        [⟨⟨1, 1, 2⟩, .pending⟩, ⟨⟨2, 1, 1⟩, .pending⟩,
         ⟨⟨3, 2, 1⟩, .pending⟩]).2.Pairwise ordAgg :=
  c7_relay_per_aggregate_order (fun _ e => !(e.eid == 2)) 10 2
    [⟨⟨1, 1, 2⟩, .pending⟩, ⟨⟨2, 1, 1⟩, .pending⟩, ⟨⟨3, 2, 1⟩, .pending⟩]
    (by decide)
